import Mathlib

/-!
# Verification of the lalune_engine step-cache / rate-limit core

A shallow embedding of the Rust sources (`src/utils.rs`, `src/cache/mod.rs`,
`src/fitbit/mod.rs`) into Lean 4, together with proofs and refutations of the
specified properties.

Modelling conventions:
* Calendar dates (`chrono::NaiveDate`) are integers counting days since the
  Unix epoch; datetimes (`chrono::NaiveDateTime`) are integers counting
  seconds since the Unix epoch. `NaiveDateTime::date` is floor division by
  86400.
* Rust strings processed by the wire protocol are `List Char`.
* Machine integers are `Nat`/`Int` with explicit bounds where the source
  behaviour depends on them.
* A Rust panic (`unwrap`, out-of-bounds index) is modelled by an `Option`
  result being `none`; fallible Rust functions returning `Result` are
  modelled with `Except`.
* External collaborators (Redis, Postgres, the upstream HTTP API) are
  modelled as explicit value parameters / oracle functions supplied to the
  embedded functions.
-/

/-- `chrono`'s `NaiveDateTime::date()`: the day containing a second-epoch,
floor division so negative timestamps round toward minus infinity. -/
def timestampToDate (ts : Int) : Int := Int.fdiv ts 86400

/-- Lower bound of the timestamp range accepted by
`NaiveDateTime::from_timestamp_opt` (the datetime library supports years
down to about -262144; the exact constant is irrelevant to every claim,
which only uses ordinary epochs). -/
def chronoMinTimestamp : Int := -8334632851200

/-- Upper bound of the timestamp range accepted by
`NaiveDateTime::from_timestamp_opt` (years up to about 262142). -/
def chronoMaxTimestamp : Int := 8210298412799

/-- `NaiveDateTime::from_timestamp_opt(ts, 0)`: `some` exactly when the
timestamp is representable. -/
def fromTimestampOpt (ts : Int) : Option Int :=
  if chronoMinTimestamp ≤ ts ∧ ts ≤ chronoMaxTimestamp then some ts else none

/-- `u16::MAX`. -/
def u16Max : Nat := 65535

/-- `usize::MAX` on the 64-bit targets the service runs on. -/
def usizeMax : Nat := 18446744073709551615

/-- `utils::safe_convert::<T>` from `src/utils.rs`.  The target type `T`
(`u16` or `usize` at the call sites) is represented by its maximal value
`tmax`; `T::try_from(value)` succeeds exactly when `0 ≤ value ≤ tmax`, and
the fallback is `T::from(u16::max_value())`, i.e. the literal 65535, not
`tmax` itself. -/
def safe_convert (tmax : Nat) (value : Int) : Nat :=
  if value < 0 then 0
  else if value ≤ (tmax : Int) then value.toNat
  else 65535

/-- `utils::longest_range` from `src/utils.rs`: walk the (score-ordered)
entries, keeping them while each date equals the running expected date
(which starts at `start_date` and increments by one day after every kept
entry), and stop at the first mismatch.  The Rust function inserts into a
`HashMap`; since the kept keys are the distinct consecutive dates
`start_date, start_date+1, …`, an association list represents the map
faithfully. -/
def longest_range (start_date : Int) : List (Int × Nat) → List (Int × Nat)
  | [] => []
  | (date, steps) :: rest =>
      if date = start_date then (date, steps) :: longest_range (start_date + 1) rest
      else []

/-- Ceiling division on integers, used to model the source's
`(a as f32 / b as f32).ceil()` on the small operands it is applied to
(numerators at most 65535, denominators at most 145 in magnitude, where
`f32` arithmetic agrees with the exact ceiling). -/
def ceilDiv (a b : Int) : Int := -(Int.fdiv (-a) b)

/-- C10, first part: `safe_convert` is total and clamps exactly as the code
does: negative inputs to 0, representable inputs to themselves, oversized
inputs to the literal 65535 (`u16::MAX`), never to the target's own maximum. -/
theorem safe_convert_spec (tmax : Nat) (v : Int) :
    (v < 0 → safe_convert tmax v = 0) ∧
    (0 ≤ v → v ≤ (tmax : Int) → safe_convert tmax v = v.toNat) ∧
    ((tmax : Int) < v → safe_convert tmax v = 65535) := by
  refine ⟨fun h => ?_, fun h0 h1 => ?_, fun h => ?_⟩
  · simp [safe_convert, h]
  · simp [safe_convert, h1, not_lt.mpr h0]
  · have h0 : ¬ v < 0 := not_lt.mpr (le_trans (Int.ofNat_nonneg tmax) (le_of_lt h))
    simp [safe_convert, h0, not_le.mpr h]

theorem safe_convert_spec_witness :
    safe_convert 65535 (-5) = 0 ∧
    safe_convert 65535 100 = 100 ∧
    safe_convert 4294967295 5000000000 = 65535 :=
  ⟨(safe_convert_spec 65535 (-5)).1 (by decide),
   ((safe_convert_spec 65535 100).2.1 (by decide) (by decide)).trans (by decide),
   (safe_convert_spec 4294967295 5000000000).2.2 (by decide)⟩

/-- C4: prefix-only cache read.  For any (score-ordered, duplicate-free)
list of unexpired cached entries whose dates lie within `[startD, stopD]` —
exactly the shape `CacheHandler::get_steps` hands to `longest_range` after
the `zrangebyscore` read and the expiry filter — the returned mapping holds
a date `d` if and only if `d` is cached and every day from `startD` through
`d` is cached: the result is the maximal contiguous run starting at
`startD`, empty when `startD` itself is missing, and it never reaches past
the first gap even when later dates are cached. -/
theorem longest_range_prefix_only (l : List (Int × Nat)) (startD stopD : Int)
    (hsort : l.Pairwise (fun p q => p.1 < q.1))
    (hrange : ∀ p ∈ l, startD ≤ p.1 ∧ p.1 ≤ stopD)
    (d : Int) (c : Nat) :
    (d, c) ∈ longest_range startD l ↔
      ((d, c) ∈ l ∧ ∀ k, startD ≤ k → k ≤ d → ∃ c2, (k, c2) ∈ l) := by
  induction l generalizing startD with
  | nil => simp [longest_range]
  | cons hd tl ih =>
    obtain ⟨a, b⟩ := hd
    have htl : tl.Pairwise (fun p q => p.1 < q.1) := hsort.of_cons
    have hlt : ∀ p ∈ tl, a < p.1 := fun p hp => (List.pairwise_cons.mp hsort).1 p hp
    have htlrange : ∀ p ∈ tl, a + 1 ≤ p.1 ∧ p.1 ≤ stopD := fun p hp =>
      ⟨by have := hlt p hp; omega, (hrange p (List.mem_cons_of_mem _ hp)).2⟩
    by_cases ha : a = startD
    · subst ha
      have hunfold : longest_range a ((a, b) :: tl) = (a, b) :: longest_range (a + 1) tl := by
        simp [longest_range]
      rw [hunfold]
      constructor
      · intro hmem
        rcases List.mem_cons.mp hmem with heq | hmem'
        · simp only [Prod.mk.injEq] at heq
          obtain ⟨rfl, rfl⟩ := heq
          refine ⟨List.mem_cons_self _ _, ?_⟩
          intro k hk1 hk2
          have hk : k = d := by omega
          subst hk
          exact ⟨c, List.mem_cons_self _ _⟩
        · obtain ⟨hmemtl, hnogap⟩ := (ih (a + 1) htl htlrange).mp hmem'
          refine ⟨List.mem_cons_of_mem _ hmemtl, ?_⟩
          intro k hk1 hk2
          by_cases hka : k = a
          · subst hka
            exact ⟨b, List.mem_cons_self _ _⟩
          · obtain ⟨c2, hc2⟩ := hnogap k (by omega) hk2
            exact ⟨c2, List.mem_cons_of_mem _ hc2⟩
      · rintro ⟨hmem, hnogap⟩
        rcases List.mem_cons.mp hmem with heq | hmemtl
        · exact heq ▸ List.mem_cons_self _ _
        · have hda : a < d := hlt _ hmemtl
          apply List.mem_cons_of_mem
          apply (ih (a + 1) htl htlrange).mpr
          refine ⟨hmemtl, ?_⟩
          intro k hk1 hk2
          obtain ⟨c2, hc2⟩ := hnogap k (by omega) hk2
          rcases List.mem_cons.mp hc2 with heq2 | h2
          · exfalso
            simp only [Prod.mk.injEq] at heq2
            omega
          · exact ⟨c2, h2⟩
    · have hunfold : longest_range startD ((a, b) :: tl) = [] := by
        simp [longest_range, ha]
      rw [hunfold]
      simp only [List.not_mem_nil, false_iff, not_and]
      intro hmem hnogap
      have hds : startD ≤ d := (hrange _ hmem).1
      obtain ⟨c2, hc2⟩ := hnogap startD le_rfl hds
      rcases List.mem_cons.mp hc2 with heq | h2
      · simp only [Prod.mk.injEq] at heq
        exact ha heq.1.symm
      · have h3 : a < startD := hlt _ h2
        have h4 : startD ≤ a := (hrange _ (List.mem_cons_self _ _)).1
        omega

theorem longest_range_prefix_only_witness :
    (3, 30) ∈ longest_range 2 [(2, 20), (3, 30), (5, 50)] ∧
    (5, 50) ∉ longest_range 2 [(2, 20), (3, 30), (5, 50)] := by
  constructor
  · refine (longest_range_prefix_only [(2, 20), (3, 30), (5, 50)] 2 6
      (by decide) (by decide) 3 30).mpr ⟨by decide, ?_⟩
    intro k hk1 hk2
    have hk : k = 2 ∨ k = 3 := by omega
    rcases hk with rfl | rfl
    · exact ⟨20, by decide⟩
    · exact ⟨30, by decide⟩
  · intro h
    obtain ⟨-, hng⟩ := (longest_range_prefix_only [(2, 20), (3, 30), (5, 50)] 2 6
      (by decide) (by decide) 5 50).mp h
    obtain ⟨c2, hc2⟩ := hng 4 (by decide) (by decide)
    simp only [List.mem_cons, List.not_mem_nil, Prod.mk.injEq, or_false] at hc2
    omega

/-- Rust `str::replace` with a single-character pattern, on the character
list representation: every occurrence of `p` is replaced by `r`. -/
def replaceChar (p : Char) (r : List Char) : List Char → List Char
  | [] => []
  | c :: cs => (if c = p then r else [c]) ++ replaceChar p r cs

/-- The response-content escaping of `utils::encode_response`
(src/utils.rs lines 211–214): backslash is doubled first, then comma,
colon and newline each gain a backslash prefix (newline becomes the two
characters backslash and `n`).  The indication field is concatenated
outside this function and is never escaped. -/
def escape_content (s : List Char) : List Char :=
  replaceChar '\n' ['\\', 'n']
    (replaceChar ':' ['\\', ':']
      (replaceChar ',' ['\\', ',']
        (replaceChar '\\' ['\\', '\\'] s)))

/-- Modelled from the spec: the consumer-side unescaping of wire content,
missing from this repository (the spec's §4.6 escaping table read in
reverse): `\\`→`\`, `\,`→`,`, `\:`→`:`, `\n`→newline; other characters
pass through unchanged. -/
def unescape_content : List Char → List Char
  | [] => []
  | [c] => [c]
  | c :: d :: rest =>
      if c = '\\' then (if d = 'n' then '\n' else d) :: unescape_content rest
      else c :: unescape_content (d :: rest)

/-- One escaped character: what `escape_content` emits for each input
character (proved below, `escape_content_cons`). -/
def escapeChar (c : Char) : List Char :=
  if c = '\\' then ['\\', '\\']
  else if c = ',' then ['\\', ',']
  else if c = ':' then ['\\', ':']
  else if c = '\n' then ['\\', 'n']
  else [c]

theorem replaceChar_append (p : Char) (r : List Char) (a b : List Char) :
    replaceChar p r (a ++ b) = replaceChar p r a ++ replaceChar p r b := by
  induction a with
  | nil => rfl
  | cons c cs ih => simp [replaceChar, ih]

theorem escape_content_cons (c : Char) (s : List Char) :
    escape_content (c :: s) = escapeChar c ++ escape_content s := by
  show escape_content (List.cons c s) = _
  by_cases h1 : c = '\\'
  · subst h1
    simp [escape_content, escapeChar, replaceChar, replaceChar_append]
  · by_cases h2 : c = ','
    · subst h2
      simp [escape_content, escapeChar, replaceChar, replaceChar_append]
    · by_cases h3 : c = ':'
      · subst h3
        simp [escape_content, escapeChar, replaceChar, replaceChar_append]
      · by_cases h4 : c = '\n'
        · subst h4
          simp [escape_content, escapeChar, replaceChar, replaceChar_append, h1]
        · simp [escape_content, escapeChar, replaceChar, replaceChar_append, h1, h2, h3, h4]

theorem unescape_escaped_cons (c : Char) (t : List Char) :
    unescape_content (escapeChar c ++ t) = c :: unescape_content t := by
  by_cases h1 : c = '\\'
  · subst h1; simp [escapeChar, unescape_content]
  · by_cases h2 : c = ','
    · subst h2; simp [escapeChar, unescape_content]
    · by_cases h3 : c = ':'
      · subst h3; simp [escapeChar, unescape_content]
      · by_cases h4 : c = '\n'
        · subst h4; simp [escapeChar, unescape_content, h1]
        · -- plain character: a single char, not a backslash
          cases t with
          | nil => simp [escapeChar, h1, h2, h3, h4, unescape_content]
          | cons d rest => simp [escapeChar, h1, h2, h3, h4, unescape_content]

/-- C8: response escaping.  The content `a,b:c\d` escapes to `a\,b\:c\\d`,
and escaping is losslessly invertible: unescaping an escaped content string
always returns the original, for every content string. -/
theorem escape_content_spec :
    escape_content ("a,b:c\\d".toList) = "a\\,b\\:c\\\\d".toList ∧
    ∀ s : List Char, unescape_content (escape_content s) = s := by
  constructor
  · decide
  · intro s
    induction s with
    | nil => rfl
    | cons c cs ih => rw [escape_content_cons, unescape_escaped_cons, ih]

/-- Rust `str::split` with a single-character separator: splitting never
yields an empty list (an empty input gives one empty field). -/
def splitOnChar (sep : Char) : List Char → List (List Char)
  | [] => [[]]
  | c :: cs =>
    match splitOnChar sep cs with
    | [] => [[]]
    | h :: t => if c = sep then [] :: h :: t else (c :: h) :: t

/-- Decimal value of a digit string (only applied to all-digit strings). -/
def digitsVal (s : List Char) : Nat := s.foldl (fun n c => n * 10 + (c.toNat - 48)) 0

/-- A non-empty all-digit string parses to its decimal value. -/
def parseNatDigits? (s : List Char) : Option Nat :=
  if s = [] then none
  else if s.all Char.isDigit then some (digitsVal s) else none

/-- Rust `str::parse::<u32>`: optional leading `+`, decimal digits, value at
most `u32::MAX`. -/
def parse_u32? (s : List Char) : Option Nat :=
  let body := match s with
    | '+' :: rest => rest
    | _ => s
  match parseNatDigits? body with
  | some n => if n ≤ 4294967295 then some n else none
  | none => none

/-- Rust `str::parse::<i64>`: optional sign, decimal digits, value within
the 64-bit signed range. -/
def parse_i64? (s : List Char) : Option Int :=
  match s with
  | '-' :: rest =>
    match parseNatDigits? rest with
    | some n => if n ≤ 9223372036854775808 then some (-(n : Int)) else none
    | none => none
  | '+' :: rest =>
    match parseNatDigits? rest with
    | some n => if n ≤ 9223372036854775807 then some ((n : Int)) else none
    | none => none
  | _ =>
    match parseNatDigits? s with
    | some n => if n ≤ 9223372036854775807 then some ((n : Int)) else none
    | none => none

/-- `models::Range` (inclusive date range).  Rust's field `end` is a Lean
keyword, so it is named `stop` here. -/
structure Range where
  start : Int
  stop : Int
deriving DecidableEq, Repr

/-- `models::Period`: the named upstream query granularities. -/
inductive Period
  | oneDay
  | oneWeek
  | oneMonth
  | threeMonths
  | sixMonths
  | oneYear
deriving DecidableEq, Repr

/-- `errors::FitbitError`, reduced to its variant kind (the display
messages carried by the Rust variants are presentation-only). -/
inductive FitbitErrorKind
  | httpRequestError
  | fitbitApiError
  | cacheError
  | expiredToken
  | rejectedToken
  | parsingError
  | dateOutOfRange
  | rateLimitExceeded
  | redisError
  | redisPoolError
  | postgresError
  | typeConversionError
  | invalidMessage
  | userNotFound
deriving DecidableEq, Repr

/-- `models::Command`. -/
inductive Command
  | getSteps (userId : List Char) (range : Range)
  | refreshToken (userId : List Char)
deriving DecidableEq, Repr

/-- The Crockford base32 alphabet used by ULIDs. -/
def crockfordAlphabet : List Char := "0123456789ABCDEFGHJKMNPQRSTVWXYZ".toList

/-- `ulid::Ulid::from_string`: accepts a canonical 26-character Crockford
base32 string whose first character is at most `7` (so the value fits in
128 bits); the id is kept in its string form. -/
def ulidFromString? (s : List Char) : Option (List Char) :=
  if s.length = 26 ∧ (∀ c ∈ s, c ∈ crockfordAlphabet) ∧ s.headD '8' ≤ '7'
  then some s else none

/-- The per-command payload decoding at the end of `utils::decode_message`:
`get_steps` expects `userId,startEpoch,endEpoch` (both epochs valid
timestamps, converted to their dates), `refresh` expects a lone `userId`,
anything else is an invalid message. -/
def decode_command (cmd payload : List Char) : Except FitbitErrorKind Command :=
  if cmd = "get_steps".toList then
    match splitOnChar ',' payload with
    | [userId, startS, endS] =>
      match parse_i64? startS with
      | none => .error .invalidMessage
      | some startTs =>
        match fromTimestampOpt startTs with
        | none => .error .invalidMessage
        | some startTs =>
          match parse_i64? endS with
          | none => .error .invalidMessage
          | some endTs =>
            match fromTimestampOpt endTs with
            | none => .error .invalidMessage
            | some endTs =>
              .ok (.getSteps userId ⟨timestampToDate startTs, timestampToDate endTs⟩)
    | _ => .error .invalidMessage
  else if cmd = "refresh".toList then
    match splitOnChar ',' payload with
    | [userId] => .ok (.refreshToken userId)
    | _ => .error .invalidMessage
  else .error .invalidMessage

/-- `utils::decode_message` from `src/utils.rs`: colon-split the message;
an unparseable coordination id drops the message (`none`); a field count
other than 4 is an invalid-message error addressed to the id; an
unparseable or unrepresentable TTL is an invalid-message error; a TTL
strictly before `now` drops the message silently; otherwise the command
payload is decoded.  `now` is the decode-time clock
(`Utc::now().naive_utc()`), at the one-second granularity of the wire
format. -/
def decode_message (now : Int) (message : List Char) :
    Option (List Char × Except FitbitErrorKind Command) :=
  match splitOnChar ':' message with
  | [] => none
  | c0 :: rest =>
    match ulidFromString? c0 with
    | none => none
    | some cid =>
      match rest with
      | [cmd, payload, ttlS] =>
        match parse_i64? ttlS with
        | none => some (cid, .error .invalidMessage)
        | some ttlTs =>
          match fromTimestampOpt ttlTs with
          | none => some (cid, .error .invalidMessage)
          | some ttl =>
            if ttl - now < 0 then none
            else some (cid, decode_command cmd payload)
      | _ => some (cid, .error .invalidMessage)

/-- C7: expiry drop.  For a message with a valid coordination id and a
parseable TTL, a TTL strictly in the past at decode time makes
`decode_message` yield nothing (so no reply of any kind is produced),
while the identical message with a TTL at or after `now` proceeds to
normal command decoding. -/
theorem decode_message_expiry_drop (now : Int) (message c0 cmd payload ttlS cid : List Char)
    (ttl : Int)
    (hsplit : splitOnChar ':' message = [c0, cmd, payload, ttlS])
    (hulid : ulidFromString? c0 = some cid)
    (httl : parse_i64? ttlS = some ttl)
    (hrange : fromTimestampOpt ttl = some ttl) :
    (ttl < now → decode_message now message = none) ∧
    (now ≤ ttl → decode_message now message = some (cid, decode_command cmd payload)) := by
  constructor
  · intro h
    simp [decode_message, hsplit, hulid, httl, hrange, show ttl - now < 0 by omega]
  · intro h
    simp [decode_message, hsplit, hulid, httl, hrange, show ¬ ttl - now < 0 by omega]

theorem decode_message_expiry_drop_witness :
    decode_message 1700000001 ("01ARZ3NDEKTSV4RRFFQ69G5FAV:refresh:user1:1700000000".toList)
      = none ∧
    decode_message 1699999999 ("01ARZ3NDEKTSV4RRFFQ69G5FAV:refresh:user1:1700000000".toList)
      = some ("01ARZ3NDEKTSV4RRFFQ69G5FAV".toList,
              Except.ok (Command.refreshToken ("user1".toList))) := by
  constructor
  · exact (decode_message_expiry_drop 1700000001 _
      ("01ARZ3NDEKTSV4RRFFQ69G5FAV".toList) ("refresh".toList) ("user1".toList)
      ("1700000000".toList) ("01ARZ3NDEKTSV4RRFFQ69G5FAV".toList) 1700000000
      (by decide) (by decide) (by decide) (by decide)).1 (by decide)
  · exact ((decode_message_expiry_drop 1699999999 _
      ("01ARZ3NDEKTSV4RRFFQ69G5FAV".toList) ("refresh".toList) ("user1".toList)
      ("1700000000".toList) ("01ARZ3NDEKTSV4RRFFQ69G5FAV".toList) 1700000000
      (by decide) (by decide) (by decide) (by decide)).2 (by decide)).trans (by rfl)

/-- The per-entry decoding inside `CacheHandler::get_steps`
(src/cache/mod.rs lines 132–137): split the stored member string on `:`
and parse the first three fields as `u32` steps, `i64` day timestamp and
`i64` expiry.  The Rust code indexes the split result and calls
`.unwrap()` on each parse, so a missing field or unparseable number is a
panic — modelled as `none`. -/
def decode_cache_entry? (s : List Char) : Option (Nat × Int × Int) :=
  match splitOnChar ':' s with
  | p0 :: p1 :: p2 :: _ =>
    match parse_u32? p0 with
    | none => none
    | some st =>
      match parse_i64? p1 with
      | none => none
      | some ts =>
        match parse_i64? p2 with
        | none => none
        | some ex => some (st, ts, ex)
  | _ => none

/-- Map a fallible function over a list, failing as soon as one element
fails (the pattern of a Rust iterator whose body can panic). -/
def optionTraverse {a b : Type} (f : a → Option b) : List a → Option (List b)
  | [] => some []
  | x :: xs =>
    match f x with
    | none => none
    | some y =>
      match optionTraverse f xs with
      | none => none
      | some ys => some (y :: ys)

/-- `utils::parse_steps`: convert `(steps, timestamp)` pairs to
`(date, steps)` pairs.  `NaiveDateTime::from_timestamp_opt(ts, 0).unwrap()`
panics on an unrepresentable timestamp — modelled as `none`. -/
def parse_steps (steps : List (Nat × Int)) : Option (List (Int × Nat)) :=
  optionTraverse (fun p =>
    match fromTimestampOpt p.2 with
    | none => none
    | some ts => some (timestampToDate ts, p.1)) steps

/-- Outcome of the `zrangebyscore` read at the top of
`CacheHandler::get_steps`: the Redis value under the key has the wrong
type, the read fails some other way, or it returns the member strings with
scores inside the requested date window. -/
inductive RedisRead
  | typeError
  | otherError
  | ok (entries : List (List Char))

/-- `CacheHandler::get_steps` from `src/cache/mod.rs`: a type error on the
key yields an empty map, any other read error is a Redis error; otherwise
every returned member string is decoded (a malformed one panics), expired
entries are split off (and removed via `zrem`, whose failure — `zremOk =
false` — is a Redis error when there was something to remove), and the
surviving entries go through `parse_steps` and `longest_range` anchored at
the requested start date.  The overall `Option` is the panic model; the
requested end date is reflected in which entries the read returns. -/
def cache_get_steps (now startD : Int) (zremOk : Bool) (read : RedisRead) :
    Option (Except FitbitErrorKind (List (Int × Nat))) :=
  match read with
  | .typeError => some (.ok [])
  | .otherError => some (.error .redisError)
  | .ok entries =>
    match optionTraverse decode_cache_entry? entries with
    | none => none
    | some decoded =>
      let unexpired := decoded.filter (fun e => ! decide (e.2.2 < now))
      let expired := decoded.filter (fun e => decide (e.2.2 < now))
      if expired ≠ [] ∧ zremOk = false then some (.error .redisError)
      else
        match parse_steps (unexpired.map (fun e => (e.1, e.2.1))) with
        | none => none
        | some dated => some (.ok (longest_range startD dated))

/-- C5, counterexample: a stored entry whose content string is malformed
(here the entry `garbage`, which has no `:`-separated fields) makes
`CacheHandler::get_steps` panic (an out-of-bounds index / failed
`unwrap`), modelled by the `none` result — it is not treated as "no
data". -/
theorem cache_get_steps_malformed_entry_panics :
    cache_get_steps 1000 0 true (RedisRead.ok ["garbage".toList]) = none := by rfl

theorem optionTraverse_eq_none_of_mem {a b : Type} (f : a → Option b) (l : List a) (x0 : a)
    (ha : x0 ∈ l) (hf : f x0 = none) : optionTraverse f l = none := by
  induction l with
  | nil => cases ha
  | cons x xs ih =>
    rcases List.mem_cons.mp ha with rfl | h
    · simp [optionTraverse, hf]
    · cases hfx : f x
      · simp [optionTraverse, hfx]
      · simp [optionTraverse, hfx, ih h]

/-- C5, amended: only a *key-level* type mismatch (the Redis value under
the step key having the wrong type) is treated as "no data" (an empty
result, no error).  A malformed or undecodable *individual entry* content
string is not tolerated: it makes `CacheHandler::get_steps` panic
(modelled as `none`). -/
theorem cache_get_steps_defensive_spec (now startD : Int) (zremOk : Bool)
    (entries : List (List Char)) (e : List Char)
    (he : e ∈ entries) (hbad : decode_cache_entry? e = none) :
    cache_get_steps now startD zremOk RedisRead.typeError = some (Except.ok []) ∧
    cache_get_steps now startD zremOk (RedisRead.ok entries) = none := by
  refine ⟨rfl, ?_⟩
  simp [cache_get_steps, optionTraverse_eq_none_of_mem decode_cache_entry? entries e he hbad]

theorem cache_get_steps_defensive_spec_witness :
    cache_get_steps 1000 0 true RedisRead.typeError = some (Except.ok []) ∧
    cache_get_steps 1000 0 true (RedisRead.ok ["abc:def".toList]) = none :=
  cache_get_steps_defensive_spec 1000 0 true ["abc:def".toList] ("abc:def".toList)
    (by decide) (by rfl)

/-- `Fitbit::check_ratelimit`: rate-limited (`true`) when the query-log
read fails (`none`) or reports *strictly more than* 145 queries in the
current window. -/
def check_ratelimit (queries : Option Nat) : Bool :=
  match queries with
  | none => true
  | some q => q > 145

/-- The chunk classification of `Fitbit::get_steps_for_range`
(src/fitbit/mod.rs lines 173–181): the chunk's day span picks the smallest
covering named period; spans outside 0–364 days are a date-range error. -/
def period_for (days : Int) : Option Period :=
  if days = 0 then some .oneDay
  else if 1 ≤ days ∧ days ≤ 6 then some .oneWeek
  else if 7 ≤ days ∧ days ≤ 27 then some .oneMonth
  else if 28 ≤ days ∧ days ≤ 89 then some .threeMonths
  else if 90 ≤ days ∧ days ≤ 179 then some .sixMonths
  else if 180 ≤ days ∧ days ≤ 364 then some .oneYear
  else none

/-- The upstream `api::get_steps` collaborator, as an oracle: given the
end date and period of the request it returns the daily counts (or an
upstream failure). -/
def ApiOracle : Type := Int → Period → Except FitbitErrorKind (List (Int × Nat))

/-- Outcome of one `Fitbit::get_steps_for_range` call: its result, and the
upstream call it actually made (`none` when it was refused before any
network access; otherwise the chunk's start/end dates and period). -/
structure ChunkOutcome where
  result : Except FitbitErrorKind (List (Int × Nat))
  called : Option (Int × Int × Period)

/-- `Fitbit::get_steps_for_range` (src/fitbit/mod.rs lines 154–194): the
rate-limit check, then the date-order and not-in-the-future checks, then
period classification — all *before* any network access — then the
upstream call, whose results are filtered to the chunk's interval.  On
success the query is recorded and the filtered steps are written to the
cache (the write accounting is carried by the caller, `run_chunks`). -/
def get_steps_for_range (queries : Option Nat) (todayD : Int) (api : ApiOracle)
    (start stop : Int) : ChunkOutcome :=
  if check_ratelimit queries then ⟨.error .rateLimitExceeded, none⟩
  else if start > stop then ⟨.error .dateOutOfRange, none⟩
  else if stop > todayD then ⟨.error .dateOutOfRange, none⟩
  else
    match period_for (stop - start) with
    | none => ⟨.error .dateOutOfRange, none⟩
    | some p =>
      match api stop p with
      | .error e => ⟨.error e, some (start, stop, p)⟩
      | .ok steps =>
        ⟨.ok (steps.filter (fun q => decide (start ≤ q.1) && decide (q.1 ≤ stop))),
         some (start, stop, p)⟩

/-- One `HashMap::insert`: replace the value at an existing key, else add
the pair. -/
def mapInsert (m : List (Int × Nat)) (d : Int) (v : Nat) : List (Int × Nat) :=
  if m.any (fun p => decide (p.1 = d)) then
    m.map (fun p => if p.1 = d then (d, v) else p)
  else m ++ [(d, v)]

/-- `HashMap::extend` at src/fitbit/mod.rs line 130: fold the new pairs
into the map, the new value overwriting any existing value at the same
key. -/
def extendMap (m : List (Int × Nat)) (l : List (Int × Nat)) : List (Int × Nat) :=
  l.foldl (fun acc q => mapInsert acc q.1 q.2) m

/-- `HashMap` lookup on the association-list representation. -/
def mapFind? (m : List (Int × Nat)) (d : Int) : Option Nat :=
  match m.find? (fun p => decide (p.1 = d)) with
  | some p => some p.2
  | none => none

/-- `cached_steps.keys().max()` (src/fitbit/mod.rs line 104). -/
def maxKey? (m : List (Int × Nat)) : Option Int :=
  m.foldl (fun acc p =>
    match acc with
    | none => some p.1
    | some x => some (max x p.1)) none

/-- `Fitbit::get_live_range` (src/fitbit/mod.rs lines 244–304).  Inputs
are the Redis rate-limit state as read at this point: `queries` the
query-log length, `lastQuery` the newest logged query time, `reset` the
stored window-reset epoch, `nowS` the clock.  No cached prefix means
"fetch the whole requested range"; otherwise a zero remaining budget is
RateLimitExceeded; then, under the pacing rule, either no fetch (serve
the cache), the last-2-days refresh, no fetch because the cache is
current, or the tail `[cacheEnd, requestedEnd]`. -/
def get_live_range (queries : Nat) (lastQuery : Option Int) (nowS : Int) (reset : Int)
    (range_start range_stop : Int) (cache_end : Option Int) :
    Except FitbitErrorKind (Option Range) :=
  match cache_end with
  | none => .ok (some ⟨range_start, range_stop⟩)
  | some cacheEnd =>
    let remaining : Int := 145 - (queries : Int)
    let untilReset : Nat := safe_convert u16Max (reset - nowS)
    if remaining = 0 then .error .rateLimitExceeded
    else
      let requestPeriod : Nat := safe_convert usizeMax (ceilDiv (untilReset : Int) remaining)
      match lastQuery with
      | some lastQ =>
        let sinceLast : Nat := safe_convert usizeMax (nowS - lastQ)
        if sinceLast < requestPeriod then .ok none
        else if range_stop = timestampToDate nowS ∧ cacheEnd - range_stop > -2 then
          .ok (some ⟨timestampToDate nowS - 1, timestampToDate nowS⟩)
        else if range_stop = cacheEnd then .ok none
        else .ok (some ⟨cacheEnd, range_stop⟩)
      | none => .ok (some ⟨range_start, range_stop⟩)

/-- The observable outcome of a `Fitbit::get_steps` run: the value or
error returned to the caller, the upstream calls made (chunk start, chunk
end, period), and the entries written to the step cache along the way. -/
structure StepsRun where
  result : Except FitbitErrorKind (List (Int × Nat))
  fetched : List (Int × Int × Period)
  cacheWrites : List (Int × Nat)

/-- The chunk loop of `Fitbit::get_steps` (src/fitbit/mod.rs lines
122–131).  Iteration `i` anchors its chunk at the *requested* start date
(`reqStart + 364·i` — the loop's `let start = start + …` shadows the
function argument, not the live-range start) and spans
`min daysLeft 364` days; each successful chunk appends one query to the
user's log (so the count rises by one per chunk), writes its steps to the
cache and merges them into the accumulator; the first failing chunk
aborts the loop with its error. -/
def run_chunks (todayD : Int) (api : ApiOracle) (reqStart : Int) :
    Nat → Nat → Option Nat → Int → List (Int × Nat) →
    List (Int × Int × Period) → List (Int × Nat) → StepsRun
  | 0, _, _, _, acc, fetched, writes => ⟨.ok acc, fetched, writes⟩
  | iters + 1, i, queries, daysLeft, acc, fetched, writes =>
    let cstart := reqStart + 364 * (i : Int)
    let cstop := cstart + min daysLeft 364
    let out := get_steps_for_range queries todayD api cstart cstop
    let fetched2 := fetched ++ (match out.called with | some c => [c] | none => [])
    match out.result with
    | .error e => ⟨.error e, fetched2, writes⟩
    | .ok chunkSteps =>
      run_chunks todayD api reqStart iters (i + 1) (queries.map (· + 1)) (daysLeft - 364)
        (extendMap acc chunkSteps) fetched2 (writes ++ chunkSteps)

/-- `Fitbit::get_steps` (src/fitbit/mod.rs lines 94–134), after the
token-expiry pre-check (which touches only the external credential
store): `cached` is the contiguous prefix returned by the cache read,
`maxKey? cached` its last date; `get_live_range` decides whether and what
to fetch; the chunk count is 1 up to a 364-day span and the ceiling of
`span/364` beyond; then the chunk loop runs on the *requested* start. -/
def get_steps (queries : Nat) (lastQuery : Option Int) (nowS : Int) (reset : Int)
    (api : ApiOracle) (cached : List (Int × Nat)) (start stop : Int) : StepsRun :=
  let todayD := timestampToDate nowS
  match get_live_range queries lastQuery nowS reset start stop (maxKey? cached) with
  | .error e => ⟨.error e, [], []⟩
  | .ok none => ⟨.ok cached, [], []⟩
  | .ok (some live) =>
    let difference := live.stop - live.start
    let requests : Nat := if difference > 364 then (ceilDiv difference 364).toNat else 1
    run_chunks todayD api start requests 0 (some queries) difference cached [] []

/-- C1, counterexample: with *exactly* 145 queries recorded and nothing
cached, the next fetch attempt does not fail — `check_ratelimit` blocks
only counts strictly above 145, so the run reaches the upstream (one
network call is made) and returns fetched data. -/
theorem rate_limit_145_not_blocked :
    (get_steps 145 (some 0) 432000 0 (fun _ _ => Except.ok [(0, 100)]) [] 0 0).fetched
      = [(0, 0, Period.oneDay)] ∧
    (get_steps 145 (some 0) 432000 0 (fun _ _ => Except.ok [(0, 100)]) [] 0 0).result
      = Except.ok [(0, 100)] := ⟨rfl, rfl⟩

theorem fdiv_nonneg_of_nonpos_of_neg {a b : Int} (ha : a ≤ 0) (hb : b < 0) :
    0 ≤ Int.fdiv a b := by
  cases a with
  | ofNat m =>
    simp only [Int.ofNat_eq_coe] at ha
    have hm : m = 0 := by omega
    subst hm
    simp [Int.fdiv]
  | negSucc m =>
    cases b with
    | ofNat n =>
      simp only [Int.ofNat_eq_coe] at hb
      omega
    | negSucc n =>
      simp [Int.fdiv]
      positivity

theorem ceilDiv_nonpos_of_nonneg_of_neg {u r : Int} (hu : 0 ≤ u) (hr : r < 0) :
    ceilDiv u r ≤ 0 := by
  have h := fdiv_nonneg_of_nonpos_of_neg (a := -u) (b := r) (by omega) hr
  unfold ceilDiv
  omega

theorem safe_convert_of_nonpos {tmax : Nat} {v : Int} (hv : v ≤ 0) :
    safe_convert tmax v = 0 := by
  rcases lt_or_eq_of_le hv with h | h
  · simp [safe_convert, h]
  · subst h
    simp [safe_convert]

theorem run_chunks_blocked (todayD : Int) (api : ApiOracle) (reqStart : Int)
    (iters i : Nat) (queries : Nat) (daysLeft : Int)
    (acc writes : List (Int × Nat)) (hq : 145 < queries) :
    (run_chunks todayD api reqStart iters i (some queries) daysLeft acc [] writes).fetched
        = [] ∧
    ((run_chunks todayD api reqStart iters i (some queries) daysLeft acc [] writes).result
        = Except.error FitbitErrorKind.rateLimitExceeded ∨
     (run_chunks todayD api reqStart iters i (some queries) daysLeft acc [] writes).result
        = Except.ok acc) := by
  cases iters with
  | zero => simp [run_chunks]
  | succ n =>
    have hc : check_ratelimit (some queries) = true := by
      simp [check_ratelimit]
      omega
    simp [run_chunks, get_steps_for_range, hc]

/-- C1, amended: the hard cap trips one query later than stated.  With
exactly 145 recorded queries a fetch attempt is refused with
RateLimitExceeded before any network call only when a cached prefix
exists (`get_live_range`'s zero-remaining check); with an empty cache the
attempt proceeds to a live call (see the counterexample).  Once strictly
more than 145 queries are recorded, no upstream call is ever made: the
run either fails with RateLimitExceeded or serves the cache as-is. -/
theorem rate_limit_hard_cap (queries : Nat) (lastQuery : Option Int) (nowS reset : Int)
    (api : ApiOracle) (cached : List (Int × Nat)) (start stop : Int) :
    (queries = 145 → ∀ ce, maxKey? cached = some ce →
      (get_steps queries lastQuery nowS reset api cached start stop).result
          = Except.error FitbitErrorKind.rateLimitExceeded ∧
      (get_steps queries lastQuery nowS reset api cached start stop).fetched = []) ∧
    (146 ≤ queries →
      (get_steps queries lastQuery nowS reset api cached start stop).fetched = [] ∧
      ((get_steps queries lastQuery nowS reset api cached start stop).result
          = Except.error FitbitErrorKind.rateLimitExceeded ∨
       (get_steps queries lastQuery nowS reset api cached start stop).result
          = Except.ok cached)) := by
  constructor
  · rintro rfl ce hce
    have h0 : (145 : Int) - ((145 : Nat) : Int) = 0 := by norm_num
    constructor <;> simp [get_steps, get_live_range, hce, h0]
  · intro hq
    have hqgt : 145 < queries := by omega
    cases hmk : maxKey? cached with
    | none =>
      have h := run_chunks_blocked (timestampToDate nowS) api start
        (if stop - start > 364 then (ceilDiv (stop - start) 364).toNat else 1) 0 queries
        (stop - start) cached [] hqgt
      simp only [get_steps, get_live_range, hmk]
      exact h
    | some ce =>
      have hrem : ¬ ((145 : Int) - (queries : Int) = 0) := by omega
      have hrp : safe_convert usizeMax
          (ceilDiv ((safe_convert u16Max (reset - nowS) : Nat) : Int)
            (145 - (queries : Int))) = 0 :=
        safe_convert_of_nonpos
          (ceilDiv_nonpos_of_nonneg_of_neg (Int.ofNat_nonneg _) (by omega))
      cases lastQuery with
      | none =>
        simp only [get_steps, get_live_range, hmk, if_neg hrem]
        exact run_chunks_blocked (timestampToDate nowS) api start
          (if stop - start > 364 then (ceilDiv (stop - start) 364).toNat else 1) 0 queries
          (stop - start) cached [] hqgt
      | some lastQ =>
        simp only [get_steps, get_live_range, hmk, if_neg hrem, hrp, Nat.not_lt_zero,
          if_false, ite_false]
        by_cases h2 : stop = timestampToDate nowS ∧ ce - stop > -2
        · rw [if_pos h2]
          exact run_chunks_blocked (timestampToDate nowS) api start
            (if timestampToDate nowS - (timestampToDate nowS - 1) > 364
              then (ceilDiv (timestampToDate nowS - (timestampToDate nowS - 1)) 364).toNat
              else 1) 0 queries
            (timestampToDate nowS - (timestampToDate nowS - 1)) cached [] hqgt
        · rw [if_neg h2]
          by_cases h3 : stop = ce
          · simp [h3]
          · rw [if_neg h3]
            exact run_chunks_blocked (timestampToDate nowS) api start
              (if stop - ce > 364 then (ceilDiv (stop - ce) 364).toNat else 1) 0 queries
              (stop - ce) cached [] hqgt

theorem rate_limit_hard_cap_witness :
    (get_steps 145 (some 0) 432000 0 (fun _ _ => Except.ok []) [(0, 5)] 0 0).result
        = Except.error FitbitErrorKind.rateLimitExceeded ∧
    (get_steps 200 (some 0) 432000 0 (fun _ _ => Except.ok []) [] 0 3).fetched = [] :=
  ⟨((rate_limit_hard_cap 145 (some 0) 432000 0 (fun _ _ => Except.ok []) [(0, 5)] 0 0).1
      rfl 0 (by rfl)).1,
   ((rate_limit_hard_cap 200 (some 0) 432000 0 (fun _ _ => Except.ok []) [] 0 3).2
      (by omega)).1⟩

/-- C2, evaluation at the failing input: requested range day 0 to day 10,
cached contiguous prefix through day 5, pacing satisfied, last-2-days case
not applicable.  `get_live_range` duly plans the tail `[5, 10]` (third
conjunct) — but the chunk loop anchors its chunk at the *requested* start
(`let start = start + …` shadows the function argument), so the range
actually fetched upstream is `[0, 5]`, not `[5, 10]` (first conjunct): the
planned tail is never what is fetched. -/
theorem get_steps_fetches_wrong_tail :
    (get_steps 10 (some 0) 8640000 0 (fun _ _ => Except.ok [])
      [(0, 1), (1, 1), (2, 1), (3, 1), (4, 1), (5, 1)] 0 10).fetched
      = [(0, 5, Period.oneWeek)] ∧
    maxKey? [(0, 1), (1, 1), (2, 1), (3, 1), (4, 1), (5, 1)] = some 5 ∧
    get_live_range 10 (some 0) 8640000 0 0 10 (some 5)
      = Except.ok (some ⟨5, 10⟩) := ⟨rfl, rfl, rfl⟩

/-- The upstream oracle of the multi-chunk failure scenario: the chunk
ending at day 500 fails, every other chunk returns one entry for day 0. -/
def failing_api_example : ApiOracle := fun stop _ =>
  if stop = 500 then Except.error FitbitErrorKind.fitbitApiError else Except.ok [(0, 7)]

/-- C3, counterexample: a two-chunk operation (cached prefix ends at day 0,
requested through day 500) whose second chunk fails.  The operation
returns the error — but the first chunk's steps were already written to
the cache (`cacheWrites = [(0, 7)]`), so the cache state is *not*
unchanged by the failed operation. -/
theorem chunk_failure_still_caches_earlier_chunks :
    (get_steps 1 (some 0) 51840000 0 failing_api_example [(0, 5)] 0 500).result
        = Except.error FitbitErrorKind.fitbitApiError ∧
    (get_steps 1 (some 0) 51840000 0 failing_api_example [(0, 5)] 0 500).cacheWrites
        = [(0, 7)] := ⟨rfl, rfl⟩

/-- The chunk the loop of `Fitbit::get_steps` issues on its `j`-th
iteration, given the loop's entry state (`queries`, base index `i`,
remaining day budget `daysLeft`): the query count has grown by one per
completed chunk, the chunk is anchored at the requested start plus
`364·(i+j)` days, and spans the clamped remaining budget. -/
def chunk_at (todayD : Int) (api : ApiOracle) (reqStart : Int) (queries : Option Nat)
    (i : Nat) (daysLeft : Int) (j : Nat) : ChunkOutcome :=
  get_steps_for_range (queries.map (· + j)) todayD api
    (reqStart + 364 * ((i + j : Nat) : Int))
    (reqStart + 364 * ((i + j : Nat) : Int) + min (daysLeft - 364 * (j : Int)) 364)

theorem chunk_at_zero (todayD : Int) (api : ApiOracle) (reqStart : Int)
    (queries : Option Nat) (i : Nat) (daysLeft : Int) :
    chunk_at todayD api reqStart queries i daysLeft 0
      = get_steps_for_range queries todayD api (reqStart + 364 * (i : Int))
          (reqStart + 364 * (i : Int) + min daysLeft 364) := by
  unfold chunk_at
  have h1 : queries.map (· + 0) = queries := by cases queries <;> simp
  have h3 : daysLeft - 364 * ((0 : Nat) : Int) = daysLeft := by norm_num
  rw [h1, h3]
  norm_num

theorem chunk_at_shift (todayD : Int) (api : ApiOracle) (reqStart : Int)
    (queries : Option Nat) (i : Nat) (daysLeft : Int) (j : Nat) :
    chunk_at todayD api reqStart (queries.map (· + 1)) (i + 1) (daysLeft - 364) j
      = chunk_at todayD api reqStart queries i daysLeft (j + 1) := by
  unfold chunk_at
  have h1 : (queries.map (· + 1)).map (· + j) = queries.map (· + (j + 1)) := by
    cases queries with
    | none => rfl
    | some q =>
      simp only [Option.map_some']
      congr 1
      omega
  have h2 : ((i + 1 + j : Nat) : Int) = ((i + (j + 1) : Nat) : Int) := by
    push_cast
    ring
  have h3 : daysLeft - 364 - 364 * ((j : Nat) : Int) = daysLeft - 364 * ((j + 1 : Nat) : Int) := by
    push_cast
    ring
  rw [h1, h2, h3]

/-- C3, amended: a failing chunk aborts the whole chunk loop — the
operation returns the *first* failing chunk's error, and no step data is
returned to the caller.  However, the chunks completed before the failure
have each already written their results to the cache: the cache writes of
the aborted run are exactly the prior writes plus the concatenated steps
of the successfully completed chunks, not the unchanged cache state the
claim asserts. -/
theorem run_chunks_abort_on_first_failure (todayD : Int) (api : ApiOracle) (reqStart : Int)
    (k : Nat) (s : Nat → List (Int × Nat)) (iters i : Nat) (queries : Option Nat)
    (daysLeft : Int) (acc : List (Int × Nat)) (fetched : List (Int × Int × Period))
    (writes : List (Int × Nat)) (e : FitbitErrorKind)
    (hk : k < iters)
    (hok : ∀ j, j < k →
      (chunk_at todayD api reqStart queries i daysLeft j).result = Except.ok (s j))
    (hfail : (chunk_at todayD api reqStart queries i daysLeft k).result = Except.error e) :
    (run_chunks todayD api reqStart iters i queries daysLeft acc fetched writes).result
        = Except.error e ∧
    (run_chunks todayD api reqStart iters i queries daysLeft acc fetched writes).cacheWrites
        = writes ++ ((List.range k).map s).flatten := by
  induction k generalizing s iters i queries daysLeft acc fetched writes with
  | zero =>
    cases iters with
    | zero => omega
    | succ n =>
      rw [chunk_at_zero] at hfail
      simp [run_chunks, hfail]
  | succ k ih =>
    cases iters with
    | zero => omega
    | succ n =>
      have h0 : (chunk_at todayD api reqStart queries i daysLeft 0).result = Except.ok (s 0) :=
        hok 0 (Nat.succ_pos k)
      rw [chunk_at_zero] at h0
      have hok2 : ∀ j, j < k →
          (chunk_at todayD api reqStart (queries.map (· + 1)) (i + 1) (daysLeft - 364) j).result
            = Except.ok (s (j + 1)) := fun j hj => by
        rw [chunk_at_shift]
        exact hok (j + 1) (by omega)
      have hfail2 :
          (chunk_at todayD api reqStart (queries.map (· + 1)) (i + 1) (daysLeft - 364) k).result
            = Except.error e := by
        rw [chunk_at_shift]
        exact hfail
      simp only [run_chunks, h0]
      constructor
      · exact (ih (fun j => s (j + 1)) n (i + 1) (queries.map (· + 1)) (daysLeft - 364)
          (extendMap acc (s 0)) _ (writes ++ s 0) (by omega) hok2 hfail2).1
      · rw [(ih (fun j => s (j + 1)) n (i + 1) (queries.map (· + 1)) (daysLeft - 364)
          (extendMap acc (s 0)) _ (writes ++ s 0) (by omega) hok2 hfail2).2]
        rw [List.range_succ_eq_map]
        simp [Function.comp, List.append_assoc]
        rfl

theorem run_chunks_abort_on_first_failure_witness :
    (run_chunks 600 failing_api_example 0 2 0 (some 1) 500 [(0, 5)] [] []).result
        = Except.error FitbitErrorKind.fitbitApiError ∧
    (run_chunks 600 failing_api_example 0 2 0 (some 1) 500 [(0, 5)] [] []).cacheWrites
        = [(0, 7)] := by
  have h := run_chunks_abort_on_first_failure 600 failing_api_example 0 1
    (fun j => if j = 0 then [(0, 7)] else []) 2 0 (some 1) 500 [(0, 5)] [] []
    FitbitErrorKind.fitbitApiError (by omega)
    (fun j hj => by
      have hj0 : j = 0 := by omega
      subst hj0
      rfl)
    (by rfl)
  exact ⟨h.1, h.2.trans (by rfl)⟩

theorem run_chunks_succ (todayD : Int) (api : ApiOracle) (reqStart : Int)
    (iters i : Nat) (queries : Option Nat) (daysLeft : Int) (acc : List (Int × Nat))
    (fetched : List (Int × Int × Period)) (writes : List (Int × Nat)) :
    run_chunks todayD api reqStart (iters + 1) i queries daysLeft acc fetched writes
      = (match (get_steps_for_range queries todayD api (reqStart + 364 * (i : Int))
            (reqStart + 364 * (i : Int) + min daysLeft 364)).result with
         | .error e =>
            ⟨.error e,
             fetched ++ (match (get_steps_for_range queries todayD api
                 (reqStart + 364 * (i : Int))
                 (reqStart + 364 * (i : Int) + min daysLeft 364)).called with
               | some c => [c] | none => []),
             writes⟩
         | .ok chunkSteps =>
            run_chunks todayD api reqStart iters (i + 1) (queries.map (· + 1)) (daysLeft - 364)
              (extendMap acc chunkSteps)
              (fetched ++ (match (get_steps_for_range queries todayD api
                 (reqStart + 364 * (i : Int))
                 (reqStart + 364 * (i : Int) + min daysLeft 364)).called with
               | some c => [c] | none => []))
              (writes ++ chunkSteps)) := rfl

theorem run_chunks_zero (todayD : Int) (api : ApiOracle) (reqStart : Int)
    (i : Nat) (queries : Option Nat) (daysLeft : Int) (acc : List (Int × Nat))
    (fetched : List (Int × Int × Period)) (writes : List (Int × Nat)) :
    run_chunks todayD api reqStart 0 i queries daysLeft acc fetched writes
      = ⟨.ok acc, fetched, writes⟩ := rfl

theorem get_steps_for_range_ok (queries : Nat) (todayD : Int) (api : ApiOracle)
    (start stop : Int) (p : Period) (steps : List (Int × Nat))
    (hq : queries ≤ 145) (h1 : start ≤ stop) (h2 : stop ≤ todayD)
    (hp : period_for (stop - start) = some p)
    (hapi : api stop p = Except.ok steps) :
    get_steps_for_range (some queries) todayD api start stop
      = ⟨Except.ok (steps.filter (fun q => decide (start ≤ q.1) && decide (q.1 ≤ stop))),
         some (start, stop, p)⟩ := by
  have hc : check_ratelimit (some queries) = false := by
    simp [check_ratelimit]
    omega
  simp [get_steps_for_range, hc, not_lt.mpr h1, not_lt.mpr h2, hp, hapi]

/-- C6: chunk boundary exactness.  With an empty cache (so the live range
is the whole request), enough rate-limit budget and dates in the past: a
live range spanning 364 days is fetched as exactly one chunk classified
with the "1 year" period; a 365-day span as exactly two chunks (364 days
classified "1 year", then the 1-day remainder); a 0-day span as exactly
one chunk classified "1 day". -/
theorem chunk_boundary_exactness (start nowS : Int) (queries : Nat) (lastQuery : Option Int)
    (reset : Int) (api : ApiOracle) (f : Int → Period → List (Int × Nat))
    (hapi : ∀ d p, api d p = Except.ok (f d p))
    (hq : queries ≤ 144)
    (htoday : start + 365 ≤ timestampToDate nowS) :
    (get_steps queries lastQuery nowS reset api [] start (start + 364)).fetched
        = [(start, start + 364, Period.oneYear)] ∧
    (get_steps queries lastQuery nowS reset api [] start (start + 365)).fetched
        = [(start, start + 364, Period.oneYear), (start + 364, start + 365, Period.oneWeek)] ∧
    (get_steps queries lastQuery nowS reset api [] start start).fetched
        = [(start, start, Period.oneDay)] := by
  have hmk : maxKey? ([] : List (Int × Nat)) = none := rfl
  refine ⟨?_, ?_, ?_⟩
  · simp only [get_steps, get_live_range, hmk]
    have hd : start + 364 - start = (364 : Int) := by ring
    rw [hd, if_neg (by norm_num)]
    rw [run_chunks_succ]
    simp only [Nat.cast_zero, mul_zero, add_zero, min_self]
    rw [get_steps_for_range_ok queries (timestampToDate nowS) api start (start + 364)
      Period.oneYear (f (start + 364) Period.oneYear) (by omega) (by omega) (by omega)
      (by rw [show start + 364 - start = (364 : Int) from by ring]; decide) (hapi _ _)]
    simp [run_chunks_zero]
  · simp only [get_steps, get_live_range, hmk]
    have hd : start + 365 - start = (365 : Int) := by ring
    rw [hd, if_pos (by norm_num)]
    rw [show ((ceilDiv 365 364).toNat) = 2 from by decide]
    rw [run_chunks_succ]
    simp only [Nat.cast_zero, mul_zero, add_zero]
    rw [show min (365 : Int) 364 = 364 from by decide]
    rw [get_steps_for_range_ok queries (timestampToDate nowS) api start (start + 364)
      Period.oneYear (f (start + 364) Period.oneYear) (by omega) (by omega) (by omega)
      (by rw [show start + 364 - start = (364 : Int) from by ring]; decide) (hapi _ _)]
    simp only [Option.map_some']
    rw [run_chunks_succ]
    rw [show ((0 + 1 : Nat) : Int) = (1 : Int) from by norm_num]
    rw [show (365 : Int) - 364 = 1 from by norm_num]
    rw [show min (1 : Int) 364 = 1 from by decide]
    rw [show (364 : Int) * 1 = 364 from by norm_num]
    rw [get_steps_for_range_ok (queries + 1) (timestampToDate nowS) api (start + 364)
      (start + 364 + 1) Period.oneWeek (f (start + 364 + 1) Period.oneWeek)
      (by omega) (by omega) (by omega)
      (by rw [show start + 364 + 1 - (start + 364) = (1 : Int) from by ring]; decide)
      (hapi _ _)]
    simp only [run_chunks_zero]
    rw [show start + 364 + 1 = start + 365 from by ring]
    simp
  · simp only [get_steps, get_live_range, hmk]
    have hd : start - start = (0 : Int) := by ring
    rw [hd, if_neg (by norm_num)]
    rw [run_chunks_succ]
    simp only [Nat.cast_zero, mul_zero, add_zero]
    rw [show min (0 : Int) 364 = 0 from by decide]
    simp only [add_zero]
    rw [get_steps_for_range_ok queries (timestampToDate nowS) api start start
      Period.oneDay (f start Period.oneDay) (by omega) (by omega) (by omega)
      (by rw [show start - start = (0 : Int) from by ring]; decide) (hapi _ _)]
    simp [run_chunks_zero]

theorem chunk_boundary_exactness_witness :
    (get_steps 0 none 34560000 0 (fun _ _ => Except.ok []) [] 0 364).fetched
        = [(0, 364, Period.oneYear)] ∧
    (get_steps 0 none 34560000 0 (fun _ _ => Except.ok []) [] 0 365).fetched
        = [(0, 364, Period.oneYear), (364, 365, Period.oneWeek)] ∧
    (get_steps 0 none 34560000 0 (fun _ _ => Except.ok []) [] 0 0).fetched
        = [(0, 0, Period.oneDay)] := by
  have h := chunk_boundary_exactness 0 34560000 0 none 0 (fun _ _ => Except.ok [])
    (fun _ _ => []) (fun _ _ => rfl) (by decide) (by decide)
  norm_num at h
  exact h

theorem mapFind?_map_replace_of_mem (m : List (Int × Nat)) (d : Int) (v : Nat)
    (h : ∃ p ∈ m, p.1 = d) :
    mapFind? (m.map (fun p => if p.1 = d then (d, v) else p)) d = some v := by
  induction m with
  | nil =>
    obtain ⟨p, hp, _⟩ := h
    cases hp
  | cons a t ih =>
    by_cases had : a.1 = d
    · have hfa : (fun p => if p.1 = d then (d, v) else p) a = (d, v) := by simp [had]
      simp only [List.map_cons, hfa, mapFind?]
      rw [List.find?_cons_of_pos _ (by simp)]
    · have hfa : (fun p => if p.1 = d then (d, v) else p) a = a := by simp [had]
      simp only [List.map_cons, hfa, mapFind?]
      rw [List.find?_cons_of_neg _ (by simp [had])]
      have h' : ∃ p ∈ t, p.1 = d := by
        obtain ⟨p, hp, he⟩ := h
        rcases List.mem_cons.mp hp with rfl | hp'
        · exact absurd he had
        · exact ⟨p, hp', he⟩
      simpa [mapFind?] using ih h'

theorem mapFind?_append_missing (m : List (Int × Nat)) (d : Int) (v : Nat)
    (h : ∀ p ∈ m, p.1 ≠ d) :
    mapFind? (m ++ [(d, v)]) d = some v := by
  induction m with
  | nil => simp [mapFind?, List.find?]
  | cons a t ih =>
    simp only [List.cons_append, mapFind?]
    rw [List.find?_cons_of_neg _ (by simp [h a (List.mem_cons_self a t)])]
    simpa [mapFind?] using ih (fun p hp => h p (List.mem_cons_of_mem a hp))

theorem mapFind?_mapInsert_self (m : List (Int × Nat)) (d : Int) (v : Nat) :
    mapFind? (mapInsert m d v) d = some v := by
  by_cases h : m.any (fun p => decide (p.1 = d)) = true
  · simp only [mapInsert, if_pos h]
    apply mapFind?_map_replace_of_mem
    simpa using h
  · simp only [mapInsert, if_neg h]
    apply mapFind?_append_missing
    intro p hp
    simp only [List.any_eq_true, decide_eq_true_eq, not_exists, not_and] at h
    exact h p hp

theorem mapFind?_mapInsert_other (m : List (Int × Nat)) (e d : Int) (v : Nat)
    (hne : d ≠ e) :
    mapFind? (mapInsert m e v) d = mapFind? m d := by
  by_cases h : m.any (fun p => decide (p.1 = e)) = true
  · simp only [mapInsert, if_pos h]
    clear h
    induction m with
    | nil => rfl
    | cons a t ih =>
      by_cases hae : a.1 = e
      · have hfa : (fun p => if p.1 = e then (e, v) else p) a = (e, v) := by simp [hae]
        simp only [List.map_cons, hfa, mapFind?]
        rw [List.find?_cons_of_neg _ (by simp [Ne.symm hne])]
        rw [List.find?_cons_of_neg _ (by simp [hae, Ne.symm hne])]
        simpa [mapFind?] using ih
      · have hfa : (fun p => if p.1 = e then (e, v) else p) a = a := by simp [hae]
        simp only [List.map_cons, hfa, mapFind?]
        by_cases had : a.1 = d
        · rw [List.find?_cons_of_pos _ (by simp [had]), List.find?_cons_of_pos _ (by simp [had])]
        · rw [List.find?_cons_of_neg _ (by simp [had]), List.find?_cons_of_neg _ (by simp [had])]
          simpa [mapFind?] using ih
  · simp only [mapInsert, if_neg h]
    clear h
    induction m with
    | nil => simp [mapFind?, List.find?, Ne.symm hne]
    | cons a t ih =>
      simp only [List.cons_append, mapFind?]
      by_cases had : a.1 = d
      · rw [List.find?_cons_of_pos _ (by simp [had]), List.find?_cons_of_pos _ (by simp [had])]
      · rw [List.find?_cons_of_neg _ (by simp [had]), List.find?_cons_of_neg _ (by simp [had])]
        simpa [mapFind?] using ih

theorem mapFind?_extendMap_not_mem (cached live : List (Int × Nat)) (d : Int)
    (hd : ∀ p ∈ live, p.1 ≠ d) :
    mapFind? (extendMap cached live) d = mapFind? cached d := by
  induction live generalizing cached with
  | nil => rfl
  | cons a t ih =>
    have step : extendMap cached (a :: t) = extendMap (mapInsert cached a.1 a.2) t := rfl
    rw [step, ih (mapInsert cached a.1 a.2) (fun p hp => hd p (List.mem_cons_of_mem a hp)),
      mapFind?_mapInsert_other cached a.1 d a.2
        (fun he => hd a (List.mem_cons_self a t) he.symm)]

theorem mapFind?_extendMap_mem (live : List (Int × Nat)) :
    ∀ (cached : List (Int × Nat)) (d : Int) (v : Nat),
    (live.map Prod.fst).Nodup → (d, v) ∈ live →
    mapFind? (extendMap cached live) d = some v := by
  induction live with
  | nil =>
    intro cached d v _ hmem
    cases hmem
  | cons a t ih =>
    intro cached d v hnodup hmem
    have step : extendMap cached (a :: t) = extendMap (mapInsert cached a.1 a.2) t := rfl
    rw [step]
    rcases List.mem_cons.mp hmem with heq | hmem'
    · obtain ⟨a1, a2⟩ := a
      simp only [Prod.mk.injEq] at heq
      obtain ⟨rfl, rfl⟩ := heq
      have hnotin : ∀ p ∈ t, p.1 ≠ d := by
        intro p hp he
        have hmap : d ∈ t.map Prod.fst := he ▸ List.mem_map_of_mem Prod.fst hp
        simp only [List.map_cons, List.nodup_cons] at hnodup
        exact hnodup.1 hmap
      rw [mapFind?_extendMap_not_mem _ _ _ hnotin]
      exact mapFind?_mapInsert_self cached d v
    · have hnodup' : (t.map Prod.fst).Nodup := by
        simp only [List.map_cons, List.nodup_cons] at hnodup
        exact hnodup.2
      exact ih (mapInsert cached a.1 a.2) d v hnodup' hmem'

/-- C9: the merge in `Fitbit::get_steps` (`steps.extend(...)`, modelled by
`extendMap`) lets live results win: a date carried by the live-fetched
chunk ends up with the live count in the mapping returned to the caller,
even when the cached prefix also carried that date; a date not in the
live chunk keeps its cached value — live overwrites cached, never the
reverse. -/
theorem extend_live_overwrites_cached (cached live : List (Int × Nat)) (d : Int) (v : Nat)
    (hnodup : (live.map Prod.fst).Nodup) :
    ((d, v) ∈ live → mapFind? (extendMap cached live) d = some v) ∧
    ((∀ w, (d, w) ∉ live) → mapFind? (extendMap cached live) d = mapFind? cached d) := by
  constructor
  · intro hmem
    exact mapFind?_extendMap_mem live cached d v hnodup hmem
  · intro hnot
    apply mapFind?_extendMap_not_mem
    intro p hp he
    exact hnot p.2 (by simpa [← he] using hp)

theorem extend_live_overwrites_cached_witness :
    mapFind? (extendMap [(3, 10)] [(3, 42), (4, 7)]) 3 = some 42 ∧
    mapFind? (extendMap [(3, 10)] [(3, 42), (4, 7)]) 5 = mapFind? [(3, 10)] 5 := by
  constructor
  · exact (extend_live_overwrites_cached [(3, 10)] [(3, 42), (4, 7)] 3 42
      (by decide)).1 (by decide)
  · refine (extend_live_overwrites_cached [(3, 10)] [(3, 42), (4, 7)] 5 0
      (by decide)).2 ?_
    intro w hw
    simp only [List.mem_cons, List.not_mem_nil, Prod.mk.injEq, or_false] at hw
    omega
